import Mathlib

/-!
Verification of `CosmicRayTrackMatchingAlgorithm.cc` (LArContent, namespace `lar`).

The algorithm matches 2D clusters across three projection views and
re-partitions the hits of the third view.  This file gives a shallow
embedding of the algorithm: hits are identified by natural-number ids
(modelling pointer identity), clusters are lists of hit ids with an
availability flag, geometry is carried out over `ℚ` (the float
comparisons of the source become rational comparisons), the external
collaborators that live outside this translation unit (the sliding
linear fit `GetGlobalFitPosition` and the geometric merge
`LArGeometryHelper::MergeTwoPositions`) are passed as `Option`-valued
function parameters (a C++ `StatusCodeException` becomes `none`), and
Pandora status codes become an explicit `StatusCode` type with
failing functions returning `Except StatusCode`.
-/

namespace CosmicRayTrackMatching

attribute [local semireducible] Rat.sub Rat.add Rat.mul Rat.inv

/-- Pandora status codes used by the algorithm. -/
inductive StatusCode where
  | success : StatusCode
  | notFound : StatusCode
  | failure : StatusCode
deriving DecidableEq

/-- A 2D cluster of a single view: an id modelling pointer identity, the ids of
its calo hits, and the `IsAvailable` flag. -/
structure Cluster where
  id : Nat
  hits : List Nat
  available : Bool
deriving DecidableEq

/-- Association maps (`HitAssociationMap`, `ClusterAssociationMap` in the source)
are `std::map<Key, std::set<Val>>`; modelled as association lists of key and
value list. -/
abbrev AssocMap := List (Nat × List Nat)

/-- Lookup in an association map; `operator[]` on a missing key yields an empty
set, modelled by the empty list. -/
def mapLookup (m : AssocMap) (k : Nat) : List Nat :=
  match m.find? (fun e => e.1 == k) with
  | some e => e.2
  | none => []

/-- Insert a value into the set stored at a key (`m[k].insert(v)`): the set
ignores duplicates. -/
def mapInsert : AssocMap → Nat → Nat → AssocMap
  | [], k, v => [(k, [v])]
  | (k', vs) :: rest, k, v =>
    if k' = k then (k', if v ∈ vs then vs else vs ++ [v]) :: rest
    else (k', vs) :: mapInsert rest k v

/-- The `hitsToClusters` snapshot of `ModifyClusters` (source lines 385-400):
for a hit, the ids of the clusters of the current list that are available and
contain it.  Only available clusters enter the snapshot. -/
def hitsToClusters (clusters : List Cluster) (h : Nat) : List Nat :=
  (clusters.filter (fun c => c.available)).filterMap
    (fun c => if h ∈ c.hits then some c.id else none)

/-- One accepted reassignment: hit `hit`, claimed by candidate `cand`, leaves
the cluster `owner` (the single entry of `hitsToClusters`). -/
structure Move where
  cand : Nat
  hit : Nat
  owner : Nat
deriving DecidableEq

/-- Inner loop of the reassignment-list build (source lines 414-433) over the
hits claimed by one candidate: an ambiguously claimed hit
(`hitAssociationMap[hit].size() > 1`) is skipped; a hit whose snapshot entry
has more than one cluster, or none, yields `STATUS_CODE_FAILURE`; otherwise a
`Move` to the single owner is recorded. -/
def processHits (hitAssociationMap : AssocMap) (owners : Nat → List Nat) (cand : Nat) :
    List Nat → Except StatusCode (List Move)
  | [] => .ok []
  | h :: rest =>
    if (mapLookup hitAssociationMap h).length > 1 then
      processHits hitAssociationMap owners cand rest
    else
      match owners h with
      | [c] =>
        match processHits hitAssociationMap owners cand rest with
        | .error s => .error s
        | .ok ms => .ok ({ cand := cand, hit := h, owner := c } :: ms)
      | _ => .error .failure

/-- Outer loop of the reassignment-list build (source lines 408-434) over the
entries of `clusterAssociationMap`; the first failure aborts. -/
def computeMoves (hitAssociationMap : AssocMap) (owners : Nat → List Nat) :
    AssocMap → Except StatusCode (List Move)
  | [] => .ok []
  | (cand, hs) :: rest =>
    match processHits hitAssociationMap owners cand hs with
    | .error s => .error s
    | .ok m1 =>
      match computeMoves hitAssociationMap owners rest with
      | .error s => .error s
      | .ok m2 => .ok (m1 ++ m2)

/-- The hits marked for removal from the cluster with id `cid`
(`clustersToModify[pCluster]` in the source). -/
def removeList (moves : List Move) (cid : Nat) : List Nat :=
  (moves.filter (fun m => m.owner == cid)).map Move.hit

/-- Removal step for one cluster (source lines 441-477): a cluster that loses
no hits is untouched; a cluster that keeps no hits is deleted (`none`);
otherwise exactly the claimed hits are removed from it. -/
def removeFromCluster (moves : List Move) (c : Cluster) : Option Cluster :=
  if (removeList moves c.id).isEmpty then some c
  else if (c.hits.filter (fun h => ! (removeList moves c.id).contains h)).isEmpty then none
  else some { c with hits := c.hits.filter (fun h => ! (removeList moves c.id).contains h) }

/-- Removal phase over the whole current cluster list. -/
def removePhase (clusters : List Cluster) (moves : List Move) : List Cluster :=
  clusters.filterMap (removeFromCluster moves)

/-- The candidate ids that own at least one move
(the keys of `clustersToCreate`). -/
def candIds (moves : List Move) : List Nat :=
  (moves.map Move.cand).dedup

/-- Creation phase (source lines 486-498): one new cluster per candidate id
from the hits it claimed; an empty hit list is a defensive
`STATUS_CODE_FAILURE`.  New clusters receive fresh ids starting at `base` and
are created available. -/
def createClusters (moves : List Move) : Nat → List Nat → Except StatusCode (List Cluster)
  | _, [] => .ok []
  | base, k :: ks =>
    if ((moves.filter (fun m => m.cand == k)).map Move.hit).isEmpty then .error .failure
    else
      match createClusters moves (base + 1) ks with
      | .error s => .error s
      | .ok cs =>
        .ok (Cluster.mk base ((moves.filter (fun m => m.cand == k)).map Move.hit) true :: cs)

/-- A fresh id strictly above every id of the input list, modelling that a
newly created Pandora cluster is a distinct object. -/
def freshId (clusters : List Cluster) : Nat :=
  (clusters.map Cluster.id).foldr max 0 + 1

/-- `CosmicRayTrackMatchingAlgorithm::ModifyClusters` (source lines 373-514)
on one view: build the ownership snapshot, build the reassignment lists
(failing fatally on unresolvable ownership), return the list unchanged with
success if nothing is committable, otherwise remove the claimed hits from
their owners and append the newly created clusters
(`SaveList` merges the temporary list into the current one). -/
def ModifyClusters (clusters : List Cluster) (hitAssociationMap : AssocMap)
    (clusterAssociationMap : AssocMap) : Except StatusCode (List Cluster) :=
  match computeMoves hitAssociationMap (hitsToClusters clusters) clusterAssociationMap with
  | .error s => .error s
  | .ok moves =>
    if moves.isEmpty then .ok clusters
    else
      match createClusters moves (freshId clusters) (candIds moves) with
      | .error s => .error s
      | .ok newClusters => .ok (removePhase clusters moves ++ newClusters)

/-! ## Matching phase: `SelectMatchedTracks` on one cluster pair

Geometry.  A `CartesianVector` of a 2D view has a fixed `y`; positions are
modelled as rational `(x, z)` pairs.  The algorithm only ever uses squared
distances between positions, compared against squared tolerances. -/

/-- A 2D position (drift coordinate `x`, wire coordinate `z`). -/
structure Pos where
  x : ℚ
  z : ℚ
deriving DecidableEq

/-- Squared distance, `(a - b).GetMagnitudeSquared()` of the source. -/
def Pos.distSq (a b : Pos) : ℚ :=
  (a.x - b.x) ^ 2 + (a.z - b.z) ^ 2

/-- `std::min` on the drift coordinate (kept as an explicit comparison so that
every definition evaluates by kernel reduction). -/
def minQ (a b : ℚ) : ℚ := if b < a then b else a

/-- `std::max` on the drift coordinate. -/
def maxQ (a b : ℚ) : ℚ := if a < b then b else a

/-- The configuration read by `ReadSettings` (source lines 518-557);
field names follow the source members. -/
structure Params where
  m_clusterMinLength : ℚ
  m_minXOverlap : ℚ
  m_minXOverlapFraction : ℚ
  m_maxPointDisplacement : ℚ
  m_maxHitDisplacement : ℚ
  m_minMatchedPointFraction : ℚ
  m_minMatchedHits : Nat
deriving DecidableEq

/-- The defaults of `ReadSettings`. -/
def defaultParams : Params :=
  { m_clusterMinLength := 10
    m_minXOverlap := 3
    m_minXOverlapFraction := 4 / 5
    m_maxPointDisplacement := 3 / 2
    m_maxHitDisplacement := 5
    m_minMatchedPointFraction := 4 / 5
    m_minMatchedHits := 10 }

/-- A calo hit of the third view: id (pointer identity) and position. -/
structure CaloHit where
  id : Nat
  pos : Pos
deriving DecidableEq

/-- An available cluster of the third view, with its hits and its X span
(`LArClusterHelper::GetClusterSpanX`, a helper outside this translation unit,
is carried as data). -/
structure HitCluster where
  id : Nat
  caloHits : List CaloHit
  xMin : ℚ
  xMax : ℚ
deriving DecidableEq

/-- A seed cluster of one of the two matched views: its X span
(`GetClusterSpanX`, carried as data) and its cached sliding linear fit
(`TwoDSlidingFitResult::GetGlobalFitPosition` with extrapolation flag `true`;
a thrown `StatusCodeException` is `none`). -/
structure SeedCluster where
  xMin : ℚ
  xMax : ℚ
  fit : ℚ → Option Pos

/-- `xOverlap` of the pair (source line 174). -/
def xOverlapOf (c1 c2 : SeedCluster) : ℚ :=
  minQ c1.xMax c2.xMax - maxQ c1.xMin c2.xMin

/-- `xSpan` of the pair (source line 175). -/
def xSpanOf (c1 c2 : SeedCluster) : ℚ :=
  maxQ c1.xMax c2.xMax - minQ c1.xMin c2.xMin

/-- The sampling coordinates (source lines 192-195):
`x = xMin + (n + 0.5) / N * (xMax - xMin)` for `n = 0 .. N-1`. -/
def samplePoints (n : Nat) (xMin xMax : ℚ) : List ℚ :=
  (List.range n).map (fun (i : Nat) => xMin + (1 / 2 + (i : ℚ)) / (n : ℚ) * (xMax - xMin))

/-- One sample evaluation (source lines 197-209): query both fits, then the
geometric merge; any failure discards the sample (the later queries are not
made once one fails, as the `try` block is left). -/
def sampleProj (c1 c2 : SeedCluster) (merge : Pos → Pos → Option Pos) (x : ℚ) : Option Pos :=
  match c1.fit x with
  | none => none
  | some p1 =>
    match c2.fit x with
    | none => none
    | some p2 => merge p1 p2

/-- The list of resolved projected positions over the overlap range, sampled
at 100 points (`nSamplingPoints`, hard-coded in the source at line 190). -/
def projectedPositionsOf (merge : Pos → Pos → Option Pos) (c1 c2 : SeedCluster) : List Pos :=
  (samplePoints 100 (maxQ c1.xMin c2.xMin) (minQ c1.xMax c2.xMax)).filterMap
    (sampleProj c1 c2 merge)

/-- A hit is associated when it lies within `m_maxPointDisplacement` of some
projected position (source lines 235-246). -/
def isAssociatedHit (P : Params) (proj : List Pos) (h : CaloHit) : Bool :=
  proj.any (fun p => decide (h.pos.distSq p < P.m_maxPointDisplacement ^ 2))

/-- The associated hits over all available clusters of the third view
(source lines 220-250); the `CaloHitList` set is modelled by the joined list,
hit ids being distinct across clusters. -/
def associatedHitsOf (P : Params) (proj : List Pos) (avail : List HitCluster) : List CaloHit :=
  ((avail.map HitCluster.caloHits).flatten).filter (isAssociatedHit P proj)

/-- The clusters contributing at least one associated hit (source line 252). -/
def associatedClustersOf (P : Params) (proj : List Pos) (avail : List HitCluster) :
    List HitCluster :=
  avail.filter (fun c => c.caloHits.any (isAssociatedHit P proj))

/-- Cluster-span requirement (source lines 257-275): every associated cluster
must not span more than the smaller of the two seed spans. -/
def goodClustersCheck (c1 c2 : SeedCluster) (assoc : List HitCluster) : Bool :=
  assoc.all (fun c => ¬ ((c.xMax - c.xMin) > minQ (c1.xMax - c1.xMin) (c2.xMax - c2.xMin)))

/-- Hit-proximity requirement (source lines 279-303): an associated hit is
kept only if some other associated hit lies within `m_maxHitDisplacement`. -/
def matchedHitsOf (P : Params) (assocHits : List CaloHit) : List CaloHit :=
  assocHits.filter (fun h1 => assocHits.any (fun h2 =>
    h2.id ≠ h1.id ∧ h1.pos.distSq h2.pos < P.m_maxHitDisplacement ^ 2))

/-- The number of projected positions with a matched hit within
`m_maxPointDisplacement` (source lines 311-332). -/
def nMatchedPoints (P : Params) (proj : List Pos) (matched : List CaloHit) : Nat :=
  (proj.filter (fun p => matched.any (fun h =>
    decide (h.pos.distSq p < P.m_maxPointDisplacement ^ 2)))).length

/-- Store the associations of an accepted candidate (source lines 339-345). -/
def recordAssociations (clusterID : Nat) (matched : List CaloHit)
    (hm cm : AssocMap) : AssocMap × AssocMap :=
  matched.foldl (fun maps h => (mapInsert maps.1 h.id clusterID, mapInsert maps.2 clusterID h.id))
    (hm, cm)

/-- `CosmicRayTrackMatchingAlgorithm::SelectMatchedTracks` on one candidate
pair (source lines 162-369): overlap gate, sampling, association, the three
remaining filters, and finally the recording of the associations; every
rejection leaves the two maps unchanged. -/
def SelectMatchedTracksPair (P : Params) (merge : Pos → Pos → Option Pos) (clusterID : Nat)
    (c1 c2 : SeedCluster) (avail : List HitCluster) (hm cm : AssocMap) : AssocMap × AssocMap :=
  if xOverlapOf c1 c2 < P.m_minXOverlap ∨
      xOverlapOf c1 c2 / xSpanOf c1 c2 < P.m_minXOverlapFraction then (hm, cm)
  else if (projectedPositionsOf merge c1 c2).isEmpty then (hm, cm)
  else if ¬ goodClustersCheck c1 c2
      (associatedClustersOf P (projectedPositionsOf merge c1 c2) avail) then (hm, cm)
  else if (matchedHitsOf P (associatedHitsOf P (projectedPositionsOf merge c1 c2) avail)).length <
      P.m_minMatchedHits then (hm, cm)
  else if ((nMatchedPoints P (projectedPositionsOf merge c1 c2)
        (matchedHitsOf P (associatedHitsOf P (projectedPositionsOf merge c1 c2) avail)) : ℚ) /
      ((projectedPositionsOf merge c1 c2).length : ℚ)) < P.m_minMatchedPointFraction then (hm, cm)
  else recordAssociations clusterID
    (matchedHitsOf P (associatedHitsOf P (projectedPositionsOf merge c1 c2) avail)) hm cm

/-! ## Run phase -/

/-- `SelectCleanClusters` (source lines 83-94) keeps the clusters whose length
meets `m_clusterMinLength`; `LArClusterHelper::GetLengthSquared` lives outside
this translation unit, so the length test is a parameter. -/
def SelectCleanClusters (isClean : Cluster → Bool) (l : List Cluster) : List Cluster :=
  l.filter isClean

/-- Insertion step for the sort of `GetAvailableClusters`. -/
def insertByNHits (c : Cluster) : List Cluster → List Cluster
  | [] => [c]
  | d :: ds => if d.hits.length < c.hits.length then c :: d :: ds else d :: insertByNHits c ds

/-- `std::sort(..., LArClusterHelper::SortByNHits)`: the comparator lives
outside this translation unit; modelled as a sort by descending hit count
(the order has no bearing on the verified properties). -/
def sortByNHits (l : List Cluster) : List Cluster :=
  l.foldr insertByNHits []

/-- `CosmicRayTrackMatchingAlgorithm::GetAvailableClusters` (source lines
59-79): keep the available clusters of the named list, return
`STATUS_CODE_NOT_FOUND` when none survive, else the sorted survivors. -/
def GetAvailableClusters (clusterList : List Cluster) : Except StatusCode (List Cluster) :=
  let avail := clusterList.filter (fun c => c.available)
  if avail.isEmpty then .error .notFound
  else .ok (sortByNHits avail)

/-- `CosmicRayTrackMatchingAlgorithm::Run` (source lines 22-55), with the
matching phase abstracted: `mkAssoc` stands for the triple-loop of
`SelectMatchedTracks` (a pure computation of the two association maps from
the clean clusters of two views and the available clusters of the third).
The result carries the status together with the three cluster lists as they
stand when the algorithm returns: an early abort leaves every list
unchanged. -/
def Run (isClean : Cluster → Bool)
    (mkAssoc : List Cluster → List Cluster → List Cluster → AssocMap × AssocMap)
    (u v w : List Cluster) : StatusCode × List Cluster × List Cluster × List Cluster :=
  match GetAvailableClusters u with
  | .error s => (s, u, v, w)
  | .ok au =>
  match GetAvailableClusters v with
  | .error s => (s, u, v, w)
  | .ok av =>
  match GetAvailableClusters w with
  | .error s => (s, u, v, w)
  | .ok aw =>
    let cu := SelectCleanClusters isClean au
    let cv := SelectCleanClusters isClean av
    let cw := SelectCleanClusters isClean aw
    let mw := mkAssoc cu cv aw
    let mu := mkAssoc cv cw au
    let mv := mkAssoc cw cu av
    match ModifyClusters u mu.1 mu.2 with
    | .error s => (s, u, v, w)
    | .ok u2 =>
    match ModifyClusters v mv.1 mv.2 with
    | .error s => (s, u2, v, w)
    | .ok v2 =>
    match ModifyClusters w mw.1 mw.2 with
    | .error s => (s, u2, v2, w)
    | .ok w2 => (.success, u2, v2, w2)

/-! ## Basic lemmas about the reassignment-list build -/

theorem one_lt_length_of_two_mem {l : List Nat} {a b : Nat} (hab : a ≠ b)
    (ha : a ∈ l) (hb : b ∈ l) : 1 < l.length := by
  match l with
  | [] => cases ha
  | [x] =>
    simp only [List.mem_singleton] at ha hb
    exact absurd (ha.trans hb.symm) hab
  | x :: y :: t => simp [List.length_cons]

theorem processHits_ok_mem {hm : AssocMap} {owners : Nat → List Nat} {cand : Nat}
    {hs : List Nat} {ms : List Move} (hok : processHits hm owners cand hs = .ok ms) :
    ∀ m ∈ ms, m.cand = cand ∧ m.hit ∈ hs ∧
      ¬ 1 < (mapLookup hm m.hit).length ∧ owners m.hit = [m.owner] := by
  induction hs generalizing ms with
  | nil =>
    unfold processHits at hok
    cases hok
    intro m hm0
    cases hm0
  | cons h rest ih =>
    unfold processHits at hok
    by_cases hskip : (mapLookup hm h).length > 1
    · rw [if_pos hskip] at hok
      intro m hmem
      exact (ih hok m hmem).imp id (fun p => ⟨List.mem_cons_of_mem _ p.1, p.2⟩)
    · rw [if_neg hskip] at hok
      rcases ho : owners h with _ | ⟨c, _ | ⟨c2, t⟩⟩
      · rw [ho] at hok; cases hok
      · rw [ho] at hok
        rcases hr : processHits hm owners cand rest with s | ms0
        · rw [hr] at hok; cases hok
        · rw [hr] at hok
          cases hok
          intro m hmem
          rcases List.mem_cons.mp hmem with rfl | hmem0
          · exact ⟨rfl, List.mem_cons_self _ _, hskip, ho⟩
          · exact (ih hr m hmem0).imp id (fun p => ⟨List.mem_cons_of_mem _ p.1, p.2⟩)
      · rw [ho] at hok; cases hok

theorem computeMoves_ok_mem {hm : AssocMap} {owners : Nat → List Nat} {cm : AssocMap}
    {ms : List Move} (hok : computeMoves hm owners cm = .ok ms) :
    ∀ m ∈ ms, (∃ e ∈ cm, m.cand = e.1 ∧ m.hit ∈ e.2) ∧
      ¬ 1 < (mapLookup hm m.hit).length ∧ owners m.hit = [m.owner] := by
  induction cm generalizing ms with
  | nil =>
    unfold computeMoves at hok
    cases hok
    intro m hm0
    cases hm0
  | cons e rest ih =>
    obtain ⟨cand, hs⟩ := e
    unfold computeMoves at hok
    rcases hp : processHits hm owners cand hs with s | m1
    · rw [hp] at hok; cases hok
    · rw [hp] at hok
      rcases hc : computeMoves hm owners rest with s | m2
      · rw [hc] at hok; cases hok
      · rw [hc] at hok
        cases hok
        intro m hmem
        rcases List.mem_append.mp hmem with h1 | h2
        · obtain ⟨hcand, hhit, hlen, how⟩ := processHits_ok_mem hp m h1
          exact ⟨⟨(cand, hs), List.mem_cons_self _ _, hcand, hhit⟩, hlen, how⟩
        · obtain ⟨⟨e2, he2, hrest⟩, hlen, how⟩ := ih hc m h2
          exact ⟨⟨e2, List.mem_cons_of_mem _ he2, hrest⟩, hlen, how⟩

theorem processHits_error_status {hm : AssocMap} {owners : Nat → List Nat} {cand : Nat}
    {hs : List Nat} {s : StatusCode} (he : processHits hm owners cand hs = .error s) :
    s = .failure := by
  induction hs with
  | nil => unfold processHits at he; cases he
  | cons h rest ih =>
    unfold processHits at he
    by_cases hskip : (mapLookup hm h).length > 1
    · rw [if_pos hskip] at he; exact ih he
    · rw [if_neg hskip] at he
      rcases ho : owners h with _ | ⟨c, _ | ⟨c2, t⟩⟩
      · rw [ho] at he; cases he; rfl
      · rw [ho] at he
        rcases hr : processHits hm owners cand rest with s2 | ms0
        · rw [hr] at he; cases he; exact ih hr
        · rw [hr] at he; cases he
      · rw [ho] at he; cases he; rfl

theorem processHits_error_of_bad {hm : AssocMap} {owners : Nat → List Nat} {cand : Nat}
    {hs : List Nat} {h : Nat} (hmem : h ∈ hs)
    (hlen : ¬ 1 < (mapLookup hm h).length) (hbad : ∀ c, owners h ≠ [c]) :
    processHits hm owners cand hs = .error .failure := by
  induction hs with
  | nil => cases hmem
  | cons h0 rest ih =>
    unfold processHits
    by_cases heq : h0 = h
    · subst heq
      rw [if_neg hlen]
      rcases ho : owners h0 with _ | ⟨c, _ | ⟨c2, t⟩⟩
      · rfl
      · exact absurd ho (hbad c)
      · rfl
    · have hmem0 : h ∈ rest := by
        rcases List.mem_cons.mp hmem with h1 | h1
        · exact absurd h1.symm heq
        · exact h1
      by_cases hskip : (mapLookup hm h0).length > 1
      · rw [if_pos hskip]; exact ih hmem0
      · rw [if_neg hskip]
        rcases ho : owners h0 with _ | ⟨c, _ | ⟨c2, t⟩⟩
        · rfl
        · rw [ih hmem0]
        · rfl

theorem computeMoves_error_of_bad {hm : AssocMap} {owners : Nat → List Nat} {cm : AssocMap}
    {cand h : Nat} {hs : List Nat} (hmem : (cand, hs) ∈ cm) (hh : h ∈ hs)
    (hlen : ¬ 1 < (mapLookup hm h).length) (hbad : ∀ c, owners h ≠ [c]) :
    computeMoves hm owners cm = .error .failure := by
  induction cm with
  | nil => cases hmem
  | cons e rest ih =>
    unfold computeMoves
    obtain ⟨ecand, ehs⟩ := e
    rcases List.mem_cons.mp hmem with heq | hmem0
    · cases heq
      rw [processHits_error_of_bad hh hlen hbad]
    · rcases hp : processHits hm owners ecand ehs with s | m1
      · rw [processHits_error_status hp]
      · rw [ih hmem0]

/-! ## Claim C7: the empty commit is a successful no-op -/

theorem processHits_all_ambiguous {hm : AssocMap} {owners : Nat → List Nat} {cand : Nat}
    {hs : List Nat} (hamb : ∀ h ∈ hs, 1 < (mapLookup hm h).length) :
    processHits hm owners cand hs = .ok [] := by
  induction hs with
  | nil => rfl
  | cons h rest ih =>
    unfold processHits
    rw [if_pos (hamb h (List.mem_cons_self _ _))]
    exact ih (fun h2 hh2 => hamb h2 (List.mem_cons_of_mem _ hh2))

theorem computeMoves_all_ambiguous {hm : AssocMap} {owners : Nat → List Nat} {cm : AssocMap}
    (hamb : ∀ e ∈ cm, ∀ h ∈ e.2, 1 < (mapLookup hm h).length) :
    computeMoves hm owners cm = .ok [] := by
  induction cm with
  | nil => rfl
  | cons e rest ih =>
    obtain ⟨cand, hs⟩ := e
    unfold computeMoves
    rw [processHits_all_ambiguous (hamb (cand, hs) (List.mem_cons_self _ _)),
      ih (fun e2 he2 => hamb e2 (List.mem_cons_of_mem _ he2))]
    rfl

/-- Claim C7: if every hit claimed in the cluster-association map is claimed by
more than one candidate in the hit-association map (in particular when the
maps are empty), the commit leaves the view's cluster list completely
unchanged — no hit removal, no cluster deletion, no cluster creation — and
returns success, not an error. -/
theorem noop_commit_when_no_committable_hit (clusters : List Cluster) (hm cm : AssocMap)
    (hamb : ∀ e ∈ cm, ∀ h ∈ e.2, 1 < (mapLookup hm h).length) :
    ModifyClusters clusters hm cm = .ok clusters := by
  unfold ModifyClusters
  rw [computeMoves_all_ambiguous hamb]
  rfl

theorem noop_commit_witness :
    ModifyClusters [⟨1, [10, 11], true⟩] [(10, [5, 6])] [(5, [10]), (6, [10])] =
      .ok [⟨1, [10, 11], true⟩] :=
  noop_commit_when_no_committable_hit _ _ _ (by decide)

/-! ## Claim C4: the X-overlap gate -/

/-- Claim C4: a seed pair whose spans overlap by less than `m_minXOverlap`, or
whose overlap fraction is below `m_minXOverlapFraction`, is rejected before
sampling: no entry is added to either association map. -/
theorem overlap_gate_rejects (P : Params) (merge : Pos → Pos → Option Pos) (clusterID : Nat)
    (c1 c2 : SeedCluster) (avail : List HitCluster) (hm cm : AssocMap)
    (hov : xOverlapOf c1 c2 < P.m_minXOverlap ∨
      xOverlapOf c1 c2 / xSpanOf c1 c2 < P.m_minXOverlapFraction) :
    SelectMatchedTracksPair P merge clusterID c1 c2 avail hm cm = (hm, cm) := by
  unfold SelectMatchedTracksPair
  rw [if_pos hov]

theorem overlap_gate_witness :
    SelectMatchedTracksPair defaultParams (fun _ _ => none) 1
      ⟨0, 1, fun _ => none⟩ ⟨5, 6, fun _ => none⟩ [] [] [] = ([], []) :=
  overlap_gate_rejects _ _ _ _ _ _ _ _
    (Or.inl (by norm_num [xOverlapOf, minQ, maxQ, defaultParams]))

/-! ## Claim C9: a view with no available clusters aborts the run -/

/-- Claim C9: if any of the three view inputs yields zero available clusters,
the whole run aborts with `STATUS_CODE_NOT_FOUND` before any matching or
cluster modification, leaving every view's cluster list unchanged. -/
theorem run_aborts_on_empty_view (isClean : Cluster → Bool)
    (mkAssoc : List Cluster → List Cluster → List Cluster → AssocMap × AssocMap)
    (u v w : List Cluster)
    (h : ((u.filter (fun c => c.available)).isEmpty = true) ∨
      ((v.filter (fun c => c.available)).isEmpty = true) ∨
      ((w.filter (fun c => c.available)).isEmpty = true)) :
    Run isClean mkAssoc u v w = (.notFound, u, v, w) := by
  rcases h with h | h | h
  · simp [Run, GetAvailableClusters, h]
  · by_cases hu : (u.filter (fun c => c.available)).isEmpty = true <;>
      simp [Run, GetAvailableClusters, h, hu]
  · by_cases hu : (u.filter (fun c => c.available)).isEmpty = true <;>
      by_cases hv : (v.filter (fun c => c.available)).isEmpty = true <;>
        simp [Run, GetAvailableClusters, h, hu, hv]

theorem run_aborts_witness :
    Run (fun _ => true) (fun _ _ _ => ([], []))
      [⟨1, [10], true⟩] [⟨2, [20], false⟩] [⟨3, [30], true⟩] =
      (.notFound, [⟨1, [10], true⟩], [⟨2, [20], false⟩], [⟨3, [30], true⟩]) :=
  run_aborts_on_empty_view _ _ _ _ _ (Or.inr (Or.inl (by decide)))

/-! ## Claims C6 and C10: fatal failure on unresolvable ownership -/

/-- Claim C6: during commit, an unambiguously claimed hit whose rebuilt
hit-to-owning-cluster snapshot resolves to zero clusters or to more than one
cluster makes the commit fail with `STATUS_CODE_FAILURE` rather than
attempting repair. -/
theorem commit_fails_on_unresolvable_owner (clusters : List Cluster) (hm cm : AssocMap)
    (cand h : Nat) (hs : List Nat) (hmem : (cand, hs) ∈ cm) (hh : h ∈ hs)
    (hunamb : ¬ 1 < (mapLookup hm h).length)
    (hbad : (hitsToClusters clusters h).length ≠ 1) :
    ModifyClusters clusters hm cm = .error .failure := by
  have hbad2 : ∀ c, hitsToClusters clusters h ≠ [c] := by
    intro c he
    rw [he] at hbad
    exact hbad rfl
  unfold ModifyClusters
  rw [computeMoves_error_of_bad hmem hh hunamb hbad2]

theorem commit_fails_witness :
    ModifyClusters [⟨1, [10], true⟩] [(30, [5])] [(5, [30])] = .error .failure :=
  commit_fails_on_unresolvable_owner _ _ _ 5 30 [30] (by decide) (by decide)
    (by decide) (by decide)

/-- Claim C10: the ownership snapshot is built only from available clusters;
an unambiguously claimed hit whose owning cluster is present in the list but
flagged unavailable resolves to zero owners, and the commit takes the fatal
failure path instead of skipping or reassigning the hit. -/
theorem commit_fails_on_unavailable_owner (clusters : List Cluster) (hm cm : AssocMap)
    (cand h : Nat) (hs : List Nat) (c : Cluster)
    (hmem : (cand, hs) ∈ cm) (hh : h ∈ hs)
    (hunamb : ¬ 1 < (mapLookup hm h).length)
    (hc : c ∈ clusters) (hch : h ∈ c.hits) (hcu : c.available = false)
    (hall : ∀ d ∈ clusters, h ∈ d.hits → d.available = false) :
    ModifyClusters clusters hm cm = .error .failure := by
  have hempty : hitsToClusters clusters h = [] := by
    unfold hitsToClusters
    rw [List.filterMap_eq_nil_iff]
    intro d hd
    rw [List.mem_filter] at hd
    rw [if_neg]
    intro hhd
    rw [hall d hd.1 hhd] at hd
    cases hd.2
  have hbad2 : ∀ o, hitsToClusters clusters h ≠ [o] := by
    intro o he
    rw [hempty] at he
    cases he
  unfold ModifyClusters
  rw [computeMoves_error_of_bad hmem hh hunamb hbad2]

theorem commit_fails_unavailable_witness :
    ModifyClusters [⟨1, [10], false⟩] [(10, [5])] [(5, [10])] = .error .failure :=
  commit_fails_on_unavailable_owner _ _ _ 5 10 [10] ⟨1, [10], false⟩ (by decide)
    (by decide) (by decide) (by decide) (by decide) (by decide) (by decide)

/-! ## Claim C3: an ambiguously claimed hit is never moved -/

theorem mem_removeList {moves : List Move} {cid a : Nat} (ha : a ∈ removeList moves cid) :
    ∃ m ∈ moves, m.hit = a ∧ m.owner = cid := by
  unfold removeList at ha
  obtain ⟨m, hm1, hm2⟩ := List.mem_map.mp ha
  rw [List.mem_filter] at hm1
  exact ⟨m, hm1.1, hm2, by simpa using hm1.2⟩

/-- Claim C3: a hit whose hit-association entry holds two or more distinct
candidate identifiers is skipped during the build of the reassignment lists:
after a successful commit its original cluster (possibly having lost other
hits) still contains it. -/
theorem ambiguous_hit_stays (clusters : List Cluster) (hm cm : AssocMap)
    (out : List Cluster) (h k1 k2 : Nat) (c : Cluster)
    (hk : k1 ≠ k2) (hk1 : k1 ∈ mapLookup hm h) (hk2 : k2 ∈ mapLookup hm h)
    (hc : c ∈ clusters) (hch : h ∈ c.hits)
    (hok : ModifyClusters clusters hm cm = .ok out) :
    ∃ c2 ∈ out, c2.id = c.id ∧ h ∈ c2.hits := by
  have hlen : 1 < (mapLookup hm h).length := one_lt_length_of_two_mem hk hk1 hk2
  unfold ModifyClusters at hok
  split at hok
  next s hcmv => cases hok
  next moves hcmv =>
    have hnotmove : ∀ cid, ¬ h ∈ removeList moves cid := by
      intro cid hmem
      obtain ⟨m, hm1, hm2, _⟩ := mem_removeList hmem
      have := (computeMoves_ok_mem hcmv m hm1).2.1
      rw [hm2] at this
      exact this hlen
    split at hok
    · cases hok
      exact ⟨c, hc, rfl, hch⟩
    · split at hok
      next s hcr => cases hok
      next ncs hcr =>
        cases hok
        by_cases hrem : (removeList moves c.id).isEmpty
        · refine ⟨c, List.mem_append_left _ ?_, rfl, hch⟩
          exact List.mem_filterMap.mpr ⟨c, hc, by rw [removeFromCluster, if_pos hrem]⟩
        · have hkeep : h ∈ c.hits.filter (fun x => ! (removeList moves c.id).contains x) := by
            rw [List.mem_filter]
            refine ⟨hch, ?_⟩
            simp only [Bool.not_eq_eq_eq_not, Bool.not_true, ← Bool.not_eq_true]
            intro hcon
            exact hnotmove c.id (List.elem_iff.mp hcon)
          have hkne : ¬ (c.hits.filter (fun x => ! (removeList moves c.id).contains x)).isEmpty := by
            intro hcon
            rw [List.isEmpty_iff] at hcon
            rw [hcon] at hkeep
            cases hkeep
          refine ⟨{ c with hits := c.hits.filter (fun x => ! (removeList moves c.id).contains x) },
            List.mem_append_left _ ?_, rfl, hkeep⟩
          refine List.mem_filterMap.mpr ⟨c, hc, ?_⟩
          rw [removeFromCluster, if_neg hrem, if_neg hkne]

theorem ambiguous_hit_stays_witness :
    ∃ c2 ∈ [Cluster.mk 1 [10, 11, 12] true, Cluster.mk 3 [20] true],
      c2.id = 1 ∧ 10 ∈ c2.hits :=
  ambiguous_hit_stays [⟨1, [10, 11, 12], true⟩, ⟨2, [20], true⟩]
    [(10, [5, 6]), (20, [5])] [(5, [10, 20]), (6, [10])] _ 10 5 6
    ⟨1, [10, 11, 12], true⟩ (by decide) (by decide) (by decide) (by decide) (by decide)
    (by rfl)

/-! ## Claim C8: the position sampler -/

/-- Claim C8: the sampler evaluates exactly 100 sample coordinates
`x_n = xMin + (n + 0.5) / N * (xMax - xMin)` over the overlap range; a sample
whose fit query or geometric merge fails is skipped while the remaining
samples still contribute; and if every sample is discarded the pair yields no
match (both association maps are returned unchanged). -/
theorem sampler_spec (P : Params) (merge : Pos → Pos → Option Pos) (clusterID : Nat)
    (c1 c2 : SeedCluster) (avail : List HitCluster) (hm cm : AssocMap) :
    ((samplePoints 100 (maxQ c1.xMin c2.xMin) (minQ c1.xMax c2.xMax)).length = 100
      ∧ ∀ n (hn : n < (samplePoints 100 (maxQ c1.xMin c2.xMin) (minQ c1.xMax c2.xMax)).length),
          (samplePoints 100 (maxQ c1.xMin c2.xMin) (minQ c1.xMax c2.xMax)).get ⟨n, hn⟩ =
            maxQ c1.xMin c2.xMin +
              ((n : ℚ) + 1 / 2) / 100 * (minQ c1.xMax c2.xMax - maxQ c1.xMin c2.xMin))
    ∧ (∀ pre x post,
        samplePoints 100 (maxQ c1.xMin c2.xMin) (minQ c1.xMax c2.xMax) = pre ++ x :: post →
        sampleProj c1 c2 merge x = none →
        projectedPositionsOf merge c1 c2 =
          pre.filterMap (sampleProj c1 c2 merge) ++ post.filterMap (sampleProj c1 c2 merge))
    ∧ (projectedPositionsOf merge c1 c2 = [] →
        SelectMatchedTracksPair P merge clusterID c1 c2 avail hm cm = (hm, cm)) := by
  refine ⟨⟨?_, ?_⟩, ?_, ?_⟩
  · unfold samplePoints
    rw [List.length_map, List.length_range]
  · intro n hn
    unfold samplePoints
    rw [List.get_eq_getElem, List.getElem_map, List.getElem_range]
    ring
  · intro pre x post hsplit hnone
    unfold projectedPositionsOf
    rw [hsplit, List.filterMap_append, List.filterMap_cons, hnone]
  · intro hemp
    unfold SelectMatchedTracksPair
    split
    · rfl
    · rw [if_pos (by rw [hemp]; rfl)]

theorem sampler_spec_witness :
    projectedPositionsOf (fun _ _ => none) ⟨0, 1, fun _ => none⟩ ⟨0, 1, fun _ => none⟩ = [] ∧
    SelectMatchedTracksPair defaultParams (fun _ _ => none) 1 ⟨0, 1, fun _ => none⟩
      ⟨0, 1, fun _ => none⟩ [] [] [] = ([], []) := by
  have hemp : projectedPositionsOf (fun _ _ => none)
      (⟨0, 1, fun _ => none⟩ : SeedCluster) ⟨0, 1, fun _ => none⟩ = [] := by
    unfold projectedPositionsOf
    rw [List.filterMap_eq_nil_iff]
    intro x hx
    rfl
  exact ⟨hemp,
    (sampler_spec defaultParams (fun _ _ => none) 1 ⟨0, 1, fun _ => none⟩
      ⟨0, 1, fun _ => none⟩ [] [] []).2.2 hemp⟩

/-! ## Claim C5: the minimum-matched-hits boundary -/

/-- Claim C5: with the overlap gate, sampling and cluster-span filter all
passing, a candidate whose matched-hit set has exactly
`m_minMatchedHits - 1` elements is rejected with no associations recorded,
while one with exactly `m_minMatchedHits` elements passes on to the
sample-coverage filter and, when that passes, records its associations. -/
theorem minMatchedHits_boundary (P : Params) (merge : Pos → Pos → Option Pos) (clusterID : Nat)
    (c1 c2 : SeedCluster) (avail : List HitCluster) (hm cm : AssocMap)
    (hgate : ¬ (xOverlapOf c1 c2 < P.m_minXOverlap ∨
      xOverlapOf c1 c2 / xSpanOf c1 c2 < P.m_minXOverlapFraction))
    (hproj : (projectedPositionsOf merge c1 c2).isEmpty = false)
    (hgood : goodClustersCheck c1 c2
      (associatedClustersOf P (projectedPositionsOf merge c1 c2) avail) = true)
    (hpos : 1 ≤ P.m_minMatchedHits) :
    ((matchedHitsOf P (associatedHitsOf P (projectedPositionsOf merge c1 c2) avail)).length =
        P.m_minMatchedHits - 1 →
      SelectMatchedTracksPair P merge clusterID c1 c2 avail hm cm = (hm, cm))
    ∧ ((matchedHitsOf P (associatedHitsOf P (projectedPositionsOf merge c1 c2) avail)).length =
        P.m_minMatchedHits →
      ¬ ((nMatchedPoints P (projectedPositionsOf merge c1 c2)
            (matchedHitsOf P (associatedHitsOf P (projectedPositionsOf merge c1 c2) avail)) : ℚ) /
          ((projectedPositionsOf merge c1 c2).length : ℚ) < P.m_minMatchedPointFraction) →
      SelectMatchedTracksPair P merge clusterID c1 c2 avail hm cm =
        recordAssociations clusterID
          (matchedHitsOf P (associatedHitsOf P (projectedPositionsOf merge c1 c2) avail))
          hm cm) := by
  constructor
  · intro hlen
    unfold SelectMatchedTracksPair
    rw [if_neg hgate, if_neg (by rw [hproj]; exact Bool.false_ne_true),
      if_neg (fun hcon => hcon hgood),
      if_pos (by rw [hlen]; exact Nat.sub_lt hpos Nat.one_pos)]
  · intro hlen hcov
    unfold SelectMatchedTracksPair
    rw [if_neg hgate, if_neg (by rw [hproj]; exact Bool.false_ne_true),
      if_neg (fun hcon => hcon hgood),
      if_neg (by rw [hlen]; exact lt_irrefl _), if_neg hcov]

theorem minMatchedHits_witness :
    SelectMatchedTracksPair ⟨0, 0, 0, 1, 1, 0, 2⟩ (fun p _ => some p) 1
      ⟨5, 5, fun _ => some ⟨5, 0⟩⟩ ⟨5, 5, fun _ => some ⟨5, 0⟩⟩
      [⟨7, [⟨100, ⟨5, 0⟩⟩, ⟨101, ⟨5, 1 / 2⟩⟩], 5, 5⟩] [] [] =
      ([(100, [1]), (101, [1])], [(1, [100, 101])]) := by
  have h := (minMatchedHits_boundary ⟨0, 0, 0, 1, 1, 0, 2⟩ (fun p _ => some p) 1
    ⟨5, 5, fun _ => some ⟨5, 0⟩⟩ ⟨5, 5, fun _ => some ⟨5, 0⟩⟩
    [⟨7, [⟨100, ⟨5, 0⟩⟩, ⟨101, ⟨5, 1 / 2⟩⟩], 5, 5⟩] [] []
    (by decide) (by decide) (by decide) (by decide)).2 (by decide) (by decide)
  rw [h]
  decide

/-! ## Claims C1 and C2: hit conservation and exclusive ownership

The source builds the two association maps together (lines 339-345): a hit
records every candidate that claims it, and a candidate records every hit it
claims.  `ConsistentMaps` captures exactly this shape; the conservation
theorems take it as a hypothesis on the commit inputs. -/

/-- The hits of a view, across all its clusters (with multiplicity). -/
def allHits (cs : List Cluster) : List Nat :=
  (cs.map Cluster.hits).flatten

/-- The total number of hits across all clusters of a view. -/
def totalHits (cs : List Cluster) : Nat :=
  (allHits cs).length

/-- The shape of the maps produced by the matching phase: every hit recorded
under a candidate knows that candidate, candidate keys are unique
(`std::map`), and each candidate's hit set has no duplicates (`std::set`). -/
def ConsistentMaps (hm cm : AssocMap) : Prop :=
  (∀ e ∈ cm, ∀ h ∈ e.2, e.1 ∈ mapLookup hm h) ∧
  (cm.map Prod.fst).Nodup ∧
  (∀ e ∈ cm, e.2.Nodup)

theorem ConsistentMaps.tail {hm : AssocMap} {e : Nat × List Nat} {rest : AssocMap}
    (h : ConsistentMaps hm (e :: rest)) : ConsistentMaps hm rest :=
  ⟨fun e2 he2 h2 hh2 => h.1 e2 (List.mem_cons_of_mem _ he2) h2 hh2,
   (List.nodup_cons.mp h.2.1).2,
   fun e2 he2 => h.2.2 e2 (List.mem_cons_of_mem _ he2)⟩

theorem allHits_cons (c : Cluster) (cs : List Cluster) :
    allHits (c :: cs) = c.hits ++ allHits cs := by
  simp [allHits]

theorem allHits_append (l1 l2 : List Cluster) :
    allHits (l1 ++ l2) = allHits l1 ++ allHits l2 := by
  simp [allHits]

theorem count_allHits (cs : List Cluster) (a : Nat) :
    (allHits cs).count a = (cs.map (fun c => c.hits.count a)).sum := by
  induction cs with
  | nil => rfl
  | cons c cs ih => rw [allHits_cons, List.count_append, ih, List.map_cons, List.sum_cons]

theorem count_filter_out {a : Nat} {p : Nat → Bool} {l : List Nat} (h : p a = false) :
    (l.filter p).count a = 0 := by
  rw [List.count_eq_zero]
  intro hc
  rw [List.mem_filter, h] at hc
  cases hc.2

theorem count_eq_one_of_nodup_mem {l : List Nat} {a : Nat} (hnd : l.Nodup) (hmem : a ∈ l) :
    l.count a = 1 :=
  le_antisymm (List.nodup_iff_count_le_one.mp hnd a) (List.count_pos_iff.mpr hmem)

theorem processHits_ok_hits_nodup {hm : AssocMap} {owners : Nat → List Nat} {cand : Nat} :
    ∀ {hs : List Nat} {ms : List Move}, hs.Nodup →
      processHits hm owners cand hs = .ok ms → (ms.map Move.hit).Nodup := by
  intro hs
  induction hs with
  | nil =>
    intro ms _ hok
    unfold processHits at hok
    cases hok
    exact List.nodup_nil
  | cons h rest ih =>
    intro ms hnd hok
    unfold processHits at hok
    by_cases hskip : (mapLookup hm h).length > 1
    · rw [if_pos hskip] at hok
      exact ih hnd.of_cons hok
    · rw [if_neg hskip] at hok
      rcases ho : owners h with _ | ⟨c, _ | ⟨c2, t⟩⟩ <;> rw [ho] at hok
      · cases hok
      · rcases hr : processHits hm owners cand rest with s | ms0 <;> rw [hr] at hok
        · cases hok
        · cases hok
          rw [List.map_cons]
          refine List.nodup_cons.mpr ⟨?_, ih hnd.of_cons hr⟩
          intro hmem
          obtain ⟨m, hmmem, hmhit⟩ := List.mem_map.mp hmem
          have hin : m.hit ∈ rest := (processHits_ok_mem hr m hmmem).2.1
          rw [hmhit] at hin
          exact (List.nodup_cons.mp hnd).1 hin
      · cases hok

theorem computeMoves_ok_hits_nodup {hm : AssocMap} {owners : Nat → List Nat} :
    ∀ {cm : AssocMap} {ms : List Move}, ConsistentMaps hm cm →
      computeMoves hm owners cm = .ok ms → (ms.map Move.hit).Nodup := by
  intro cm
  induction cm with
  | nil =>
    intro ms _ hok
    unfold computeMoves at hok
    cases hok
    exact List.nodup_nil
  | cons e rest ih =>
    intro ms hcon hok
    obtain ⟨cand, hs⟩ := e
    unfold computeMoves at hok
    rcases hp : processHits hm owners cand hs with s | m1 <;> rw [hp] at hok
    · cases hok
    · rcases hc : computeMoves hm owners rest with s | m2 <;> rw [hc] at hok
      · cases hok
      · cases hok
        rw [List.map_append, List.nodup_append]
        refine ⟨processHits_ok_hits_nodup (hcon.2.2 (cand, hs) (List.mem_cons_self _ _)) hp,
          ih hcon.tail hc, ?_⟩
        intro a ha1 ha2
        obtain ⟨m, hmm, hmhit⟩ := List.mem_map.mp ha1
        obtain ⟨m2, hmm2, hmhit2⟩ := List.mem_map.mp ha2
        have h1 := processHits_ok_mem hp m hmm
        have h2 := computeMoves_ok_mem hc m2 hmm2
        obtain ⟨e2, he2, hcand2, hhit2⟩ := h2.1
        have hc1 : cand ∈ mapLookup hm m.hit :=
          hcon.1 (cand, hs) (List.mem_cons_self _ _) m.hit h1.2.1
        have hc2 : e2.1 ∈ mapLookup hm m.hit := by
          rw [hmhit, ← hmhit2]
          exact hcon.1 e2 (List.mem_cons_of_mem _ he2) m2.hit hhit2
        have hne : cand ≠ e2.1 := by
          intro heq
          have : cand ∈ rest.map Prod.fst := heq ▸ List.mem_map_of_mem Prod.fst he2
          exact (List.nodup_cons.mp hcon.2.1).1 this
        exact h1.2.2.1 (one_lt_length_of_two_mem hne hc1 hc2)

theorem hitsToClusters_single {clusters : List Cluster} {h o : Nat}
    (he : hitsToClusters clusters h = [o]) :
    ∃ c ∈ clusters, c.available = true ∧ h ∈ c.hits ∧ c.id = o := by
  have hmem : o ∈ hitsToClusters clusters h := by
    rw [he]
    exact List.mem_cons_self _ _
  unfold hitsToClusters at hmem
  obtain ⟨c, hcmem, hco⟩ := List.mem_filterMap.mp hmem
  rw [List.mem_filter] at hcmem
  by_cases hin : h ∈ c.hits
  · rw [if_pos hin] at hco
    exact ⟨c, hcmem.1, by simpa using hcmem.2, hin, Option.some.inj hco⟩
  · rw [if_neg hin] at hco
    cases hco

theorem mem_removeList_of {moves : List Move} {m : Move} (hm : m ∈ moves) {cid : Nat}
    (h : m.owner = cid) : m.hit ∈ removeList moves cid := by
  unfold removeList
  exact List.mem_map_of_mem _ (List.mem_filter.mpr ⟨hm, by simp [h]⟩)

theorem removePhase_cons_none {moves : List Move} {c : Cluster}
    (h : removeFromCluster moves c = none) (cs : List Cluster) :
    removePhase (c :: cs) moves = removePhase cs moves := by
  unfold removePhase
  rw [List.filterMap_cons, h]

theorem removePhase_cons_some {moves : List Move} {c c2 : Cluster}
    (h : removeFromCluster moves c = some c2) (cs : List Cluster) :
    removePhase (c :: cs) moves = c2 :: removePhase cs moves := by
  unfold removePhase
  rw [List.filterMap_cons, h]

theorem count_removePhase (moves : List Move) (a : Nat) :
    ∀ clusters : List Cluster,
      (allHits (removePhase clusters moves)).count a =
        (clusters.map (fun c =>
          ((c.hits.filter (fun x => ! (removeList moves c.id).contains x)).count a))).sum := by
  intro clusters
  induction clusters with
  | nil => rfl
  | cons c cs ih =>
    rw [List.map_cons, List.sum_cons]
    by_cases h1 : (removeList moves c.id).isEmpty
    · have hf : removeFromCluster moves c = some c := by
        rw [removeFromCluster, if_pos h1]
      rw [removePhase_cons_some hf, allHits_cons, List.count_append, ih]
      have hrem0 : removeList moves c.id = [] := List.isEmpty_iff.mp h1
      have hfeq : c.hits.filter (fun x => ! (List.contains ([] : List Nat) x)) = c.hits :=
        List.filter_eq_self.mpr (fun x _ => rfl)
      rw [hrem0, hfeq]
    · by_cases h2 : (c.hits.filter (fun x => ! (removeList moves c.id).contains x)).isEmpty
      · have hf : removeFromCluster moves c = none := by
          rw [removeFromCluster, if_neg h1, if_pos h2]
        rw [removePhase_cons_none hf, ih, List.isEmpty_iff.mp h2, List.count_nil,
          Nat.zero_add]
      · have hf : removeFromCluster moves c =
            some { c with hits := c.hits.filter (fun x => ! (removeList moves c.id).contains x) } := by
          rw [removeFromCluster, if_neg h1, if_neg h2]
        rw [removePhase_cons_some hf, allHits_cons, List.count_append, ih]

theorem createClusters_ok_count (moves : List Move) (a : Nat) :
    ∀ (ks : List Nat) (base : Nat) (ncs : List Cluster),
      createClusters moves base ks = .ok ncs →
      (allHits ncs).count a =
        (ks.map (fun k =>
          (((moves.filter (fun m => m.cand == k)).map Move.hit).count a))).sum := by
  intro ks
  induction ks with
  | nil =>
    intro base ncs hok
    unfold createClusters at hok
    cases hok
    rfl
  | cons k ks ih =>
    intro base ncs hok
    unfold createClusters at hok
    by_cases hemp : ((moves.filter (fun m => m.cand == k)).map Move.hit).isEmpty
    · rw [if_pos hemp] at hok
      cases hok
    · rw [if_neg hemp] at hok
      rcases hr : createClusters moves (base + 1) ks with s | cs2 <;> rw [hr] at hok
      · cases hok
      · cases hok
        rw [allHits_cons, List.count_append, ih _ _ hr, List.map_cons, List.sum_cons]

theorem createClusters_ok_mem {moves : List Move} :
    ∀ {ks : List Nat} {base : Nat} {ncs : List Cluster},
      createClusters moves base ks = .ok ncs →
      ∀ c ∈ ncs, ∃ k, c.hits = (moves.filter (fun m => m.cand == k)).map Move.hit := by
  intro ks
  induction ks with
  | nil =>
    intro base ncs hok c hc
    unfold createClusters at hok
    cases hok
    cases hc
  | cons k ks ih =>
    intro base ncs hok c hc
    unfold createClusters at hok
    by_cases hemp : ((moves.filter (fun m => m.cand == k)).map Move.hit).isEmpty
    · rw [if_pos hemp] at hok
      cases hok
    · rw [if_neg hemp] at hok
      rcases hr : createClusters moves (base + 1) ks with s | cs2 <;> rw [hr] at hok
      · cases hok
      · cases hok
        rcases List.mem_cons.mp hc with rfl | hc2
        · exact ⟨k, rfl⟩
        · exact ih hr c hc2

theorem sum_count_by_cand (a : Nat) :
    ∀ (ks : List Nat) (moves : List Move), ks.Nodup → (∀ m ∈ moves, m.cand ∈ ks) →
      (ks.map (fun k =>
        (((moves.filter (fun m => m.cand == k)).map Move.hit).count a))).sum =
        (moves.map Move.hit).count a := by
  intro ks
  induction ks with
  | nil =>
    intro moves _ hcov
    match moves, hcov with
    | [], _ => rfl
    | m :: ms, hcov => cases hcov m (List.mem_cons_self _ _)
  | cons k ks ih =>
    intro moves hnd hcov
    rw [List.map_cons, List.sum_cons]
    have hperm : List.Perm (moves.filter (fun m => m.cand == k) ++
        moves.filter (fun m => ! (m.cand == k))) moves := List.filter_append_perm _ _
    have hcnt : (moves.map Move.hit).count a =
        ((moves.filter (fun m => m.cand == k)).map Move.hit).count a +
        ((moves.filter (fun m => ! (m.cand == k))).map Move.hit).count a := by
      rw [← List.count_append, ← List.map_append]
      exact ((hperm.map Move.hit).count_eq a).symm
    have hterm : ∀ k2 ∈ ks, (moves.filter (fun m => m.cand == k2)) =
        ((moves.filter (fun m => ! (m.cand == k))).filter (fun m => m.cand == k2)) := by
      intro k2 hk2
      rw [List.filter_filter]
      refine List.filter_congr ?_
      intro m _
      cases hc : (m.cand == k2)
      · rfl
      · have hk2eq : m.cand = k2 := by simpa using hc
        have hkf : (m.cand == k) = false := by
          rw [beq_eq_false_iff_ne, hk2eq]
          intro hkk
          exact (List.nodup_cons.mp hnd).1 (hkk ▸ hk2)
        rw [hkf]
        rfl
    have hcov2 : ∀ m ∈ moves.filter (fun m => ! (m.cand == k)), m.cand ∈ ks := by
      intro m hm
      rw [List.mem_filter] at hm
      rcases List.mem_cons.mp (hcov m hm.1) with heq | hin
      · rw [heq] at hm
        simp at hm
      · exact hin
    have hmapeq : (ks.map (fun k2 =>
        (((moves.filter (fun m => m.cand == k2)).map Move.hit).count a))) =
        (ks.map (fun k2 =>
        ((((moves.filter (fun m => ! (m.cand == k))).filter
          (fun m => m.cand == k2)).map Move.hit).count a))) :=
      List.map_congr_left (fun k2 hk2 => by rw [hterm k2 hk2])
    rw [hmapeq, ih (moves.filter (fun m => ! (m.cand == k))) (List.nodup_cons.mp hnd).2 hcov2,
      hcnt]

theorem count_conservation (clusters : List Cluster) (hm cm : AssocMap) (moves : List Move)
    (a : Nat)
    (Hids : (clusters.map Cluster.id).Nodup)
    (Hnd : ∀ c ∈ clusters, c.hits.Nodup)
    (Hok : computeMoves hm (hitsToClusters clusters) cm = .ok moves)
    (Hmnd : (moves.map Move.hit).Nodup) :
    (allHits (removePhase clusters moves)).count a + (moves.map Move.hit).count a =
      (allHits clusters).count a := by
  rw [count_removePhase, count_allHits]
  by_cases hmem : a ∈ moves.map Move.hit
  · obtain ⟨m, hmmem, hmhit⟩ := List.mem_map.mp hmem
    have hcount1 : (moves.map Move.hit).count a = 1 := count_eq_one_of_nodup_mem Hmnd hmem
    have howner : hitsToClusters clusters a = [m.owner] := by
      rw [← hmhit]
      exact (computeMoves_ok_mem Hok m hmmem).2.2
    obtain ⟨cstar, hcstar, hav, hin, hid⟩ := hitsToClusters_single howner
    have huniq : ∀ m2 ∈ moves, m2.hit = a → m2 = m := fun m2 hm2 hh2 =>
      List.inj_on_of_nodup_map Hmnd hm2 hmmem (by rw [hh2, hmhit])
    obtain ⟨s, t, rfl⟩ := List.append_of_mem hcstar
    have hmapnd := Hids
    rw [List.map_append, List.map_cons] at hmapnd
    have hnd2 := List.nodup_append.mp hmapnd
    have hneid : ∀ y : Cluster, (y ∈ s ∨ y ∈ t) → y.id ≠ cstar.id := by
      intro y hy heqid
      rcases hy with hy | hy
      · exact hnd2.2.2 (List.mem_map_of_mem Cluster.id hy)
          (heqid ▸ List.mem_cons_self _ _)
      · exact (List.nodup_cons.mp hnd2.2.1).1 (heqid ▸ List.mem_map_of_mem Cluster.id hy)
    have hgstar : (cstar.hits.filter
        (fun x => ! (removeList moves cstar.id).contains x)).count a = 0 := by
      apply count_filter_out
      have hcont : (removeList moves cstar.id).contains a = true := by
        rw [List.elem_iff]
        rw [hid]
        exact hmhit ▸ mem_removeList_of hmmem rfl
      rw [hcont]
      rfl
    have hbstar : cstar.hits.count a = 1 :=
      count_eq_one_of_nodup_mem (Hnd cstar hcstar) hin
    have hoff : ∀ y : Cluster, (y ∈ s ∨ y ∈ t) →
        (y.hits.filter (fun x => ! (removeList moves y.id).contains x)).count a =
          y.hits.count a := by
      intro y hy
      apply List.count_filter
      cases hc : (removeList moves y.id).contains a
      · rfl
      · exfalso
        obtain ⟨m2, hm2, hh2, how2⟩ := mem_removeList (List.elem_iff.mp hc)
        rw [huniq m2 hm2 hh2] at how2
        exact hneid y hy (by rw [← how2, hid])
    rw [hcount1, List.map_append, List.map_cons, List.sum_append, List.sum_cons,
      List.map_append, List.map_cons, List.sum_append, List.sum_cons, hgstar, hbstar,
      List.map_congr_left (fun y hy => hoff y (Or.inl hy)),
      List.map_congr_left (fun y hy => hoff y (Or.inr hy))]
    omega
  · rw [List.count_eq_zero.mpr hmem, Nat.add_zero]
    refine congrArg List.sum (List.map_congr_left ?_)
    intro c _
    apply List.count_filter
    cases hc : (removeList moves c.id).contains a
    · rfl
    · exfalso
      obtain ⟨m2, hm2, hh2, _⟩ := mem_removeList (List.elem_iff.mp hc)
      exact hmem (hh2 ▸ List.mem_map_of_mem Move.hit hm2)

theorem ModifyClusters_ok_count (clusters : List Cluster) (hm cm : AssocMap)
    (out : List Cluster)
    (Hids : (clusters.map Cluster.id).Nodup)
    (Hnd : ∀ c ∈ clusters, c.hits.Nodup)
    (Hcon : ConsistentMaps hm cm)
    (Hok : ModifyClusters clusters hm cm = .ok out) :
    ∀ a, (allHits out).count a = (allHits clusters).count a := by
  intro a
  unfold ModifyClusters at Hok
  split at Hok
  next s hcmv => cases Hok
  next moves hcmv =>
    have Hmnd : (moves.map Move.hit).Nodup := computeMoves_ok_hits_nodup Hcon hcmv
    split at Hok
    · cases Hok
      rfl
    · split at Hok
      next s hcr => cases Hok
      next ncs hcr =>
        cases Hok
        rw [allHits_append, List.count_append,
          createClusters_ok_count moves a (candIds moves) (freshId clusters) ncs hcr,
          sum_count_by_cand a (candIds moves) moves (List.nodup_dedup _)
            (fun m hmm => List.mem_dedup.mpr (List.mem_map_of_mem _ hmm))]
        exact count_conservation clusters hm cm moves a Hids Hnd hcmv Hmnd

/-- Claim C1: under a well-formed input (distinct cluster ids, duplicate-free
hit lists) and association maps of the shape the matching phase produces, a
successful commit preserves the total number of hits across all clusters of
the view: hits are only moved between clusters, never created or dropped. -/
theorem hit_conservation (clusters : List Cluster) (hm cm : AssocMap) (out : List Cluster)
    (Hids : (clusters.map Cluster.id).Nodup)
    (Hnd : ∀ c ∈ clusters, c.hits.Nodup)
    (Hcon : ConsistentMaps hm cm)
    (Hok : ModifyClusters clusters hm cm = .ok out) :
    totalHits out = totalHits clusters :=
  (List.perm_iff_count.mpr (ModifyClusters_ok_count clusters hm cm out Hids Hnd Hcon Hok)).length_eq

theorem hit_conservation_witness :
    totalHits [⟨1, [11, 12], true⟩, ⟨3, [10, 20], true⟩] =
      totalHits [⟨1, [10, 11, 12], true⟩, ⟨2, [20], true⟩] :=
  hit_conservation [⟨1, [10, 11, 12], true⟩, ⟨2, [20], true⟩] [(10, [5]), (20, [5])]
    [(5, [10, 20])] [⟨1, [11, 12], true⟩, ⟨3, [10, 20], true⟩]
    (by decide) (by decide) ⟨by decide, by decide, by decide⟩ (by rfl)

theorem removeFromCluster_some_nodup {moves : List Move} {c c2 : Cluster}
    (hnd : c.hits.Nodup) (h : removeFromCluster moves c = some c2) : c2.hits.Nodup := by
  rw [removeFromCluster] at h
  by_cases h1 : (removeList moves c.id).isEmpty
  · rw [if_pos h1] at h
    cases h
    exact hnd
  · rw [if_neg h1] at h
    by_cases h2 : (c.hits.filter (fun x => ! (removeList moves c.id).contains x)).isEmpty
    · rw [if_pos h2] at h
      cases h
    · rw [if_neg h2] at h
      cases h
      exact hnd.filter _

theorem ModifyClusters_ok_nodup (clusters : List Cluster) (hm cm : AssocMap)
    (out : List Cluster)
    (Hnd : ∀ c ∈ clusters, c.hits.Nodup)
    (Hcon : ConsistentMaps hm cm)
    (Hok : ModifyClusters clusters hm cm = .ok out) :
    ∀ c ∈ out, c.hits.Nodup := by
  unfold ModifyClusters at Hok
  split at Hok
  next s hcmv => cases Hok
  next moves hcmv =>
    have Hmnd : (moves.map Move.hit).Nodup := computeMoves_ok_hits_nodup Hcon hcmv
    split at Hok
    · cases Hok
      exact Hnd
    · split at Hok
      next s hcr => cases Hok
      next ncs hcr =>
        cases Hok
        intro c hc
        rcases List.mem_append.mp hc with hc1 | hc2
        · obtain ⟨c0, hc0, hf⟩ := List.mem_filterMap.mp hc1
          exact removeFromCluster_some_nodup (Hnd c0 hc0) hf
        · obtain ⟨k, hk⟩ := createClusters_ok_mem hcr c hc2
          rw [hk]
          exact Hmnd.sublist ((List.filter_sublist _).map Move.hit)

theorem filter_mem_length_eq_count (h : Nat) :
    ∀ (cs : List Cluster), (∀ c ∈ cs, c.hits.Nodup) →
      (cs.filter (fun c => h ∈ c.hits)).length = (allHits cs).count h := by
  intro cs
  induction cs with
  | nil =>
    intro _
    rfl
  | cons c cs ih =>
    intro hnd
    rw [allHits_cons, List.count_append, List.filter_cons]
    by_cases hin : h ∈ c.hits
    · rw [if_pos (by simpa using hin), List.length_cons,
        ih (fun c2 hc2 => hnd c2 (List.mem_cons_of_mem _ hc2)),
        count_eq_one_of_nodup_mem (hnd c (List.mem_cons_self _ _)) hin]
      omega
    · rw [if_neg (by simpa using hin),
        ih (fun c2 hc2 => hnd c2 (List.mem_cons_of_mem _ hc2)),
        List.count_eq_zero.mpr hin]
      omega

/-- Claim C2: under the same well-formedness hypotheses, a hit contained in
exactly one cluster of the view before the commit is contained in exactly one
cluster of the view after a successful commit: a reassigned hit leaves its
single owning cluster and lands in exactly one newly created cluster, and
every other hit stays where it was. -/
theorem exclusive_ownership (clusters : List Cluster) (hm cm : AssocMap)
    (out : List Cluster) (h : Nat)
    (Hids : (clusters.map Cluster.id).Nodup)
    (Hnd : ∀ c ∈ clusters, c.hits.Nodup)
    (Hcon : ConsistentMaps hm cm)
    (Hok : ModifyClusters clusters hm cm = .ok out)
    (Hone : (clusters.filter (fun c => h ∈ c.hits)).length = 1) :
    (out.filter (fun c => h ∈ c.hits)).length = 1 := by
  rw [filter_mem_length_eq_count h out (ModifyClusters_ok_nodup clusters hm cm out Hnd Hcon Hok),
    ModifyClusters_ok_count clusters hm cm out Hids Hnd Hcon Hok h,
    ← filter_mem_length_eq_count h clusters Hnd]
  exact Hone

theorem exclusive_ownership_witness :
    (([⟨1, [11, 12], true⟩, ⟨3, [10, 20], true⟩] : List Cluster).filter
      (fun c => 20 ∈ c.hits)).length = 1 :=
  exclusive_ownership [⟨1, [10, 11, 12], true⟩, ⟨2, [20], true⟩] [(10, [5]), (20, [5])]
    [(5, [10, 20])] [⟨1, [11, 12], true⟩, ⟨3, [10, 20], true⟩] 20
    (by decide) (by decide) ⟨by decide, by decide, by decide⟩ (by rfl) (by decide)

end CosmicRayTrackMatching
